import Mathlib

/-!
Verification of the maintainer-roster reconciliation core
(`.github/scripts/maintainers/index.js`).

The JavaScript source is shallowly embedded:
* JS strings are Lean `String`s; character-level scanning works on `String.data`.
* JS objects (profiles, maintainer records) are insertion-ordered association
  lists `Obj`; `getField`/`setField` model property read and write (a write on
  an existing key replaces the value in place, a write on a fresh key appends,
  matching JS property-order semantics).
* The `currentMaintainers` JS object is an insertion-ordered map `CMap`.
* The external profile lookup is an explicit function `String → Option Obj`;
  `none` models a not-found profile.
* Effects are made explicit in return values: `collectCurrentMaintainers`
  additionally returns the list of usernames passed to the external lookup
  (in call order), `extractGitHubUsernames` additionally returns the list of
  warned-about skipped tokens, and `refreshPreviousMaintainers` additionally
  returns the final state of the (mutated) current-maintainer map and the list
  of reported removals.  A record whose `github` field is not a string would
  make the JS code throw, so `refreshPreviousMaintainers` is `Option`-valued.
-/

/-- A JS value as stored in the objects this script manipulates: a string,
an array of strings (the `repos` lists), or `undefined`. -/
inductive Value where
  | vStr : String → Value
  | vStrs : List String → Value
  | vUndefined : Value
deriving DecidableEq, Repr

/-- A JS object: an insertion-ordered association list of fields. -/
abbrev Obj := List (String × Value)

/-- Property read: first binding of the key (keys are unique in objects the
script builds). -/
def getField (o : Obj) (k : String) : Option Value :=
  (o.find? (fun e => e.1 == k)).map (fun e => e.2)

/-- Property read with JS `undefined` for a missing key. -/
def getFieldD (o : Obj) (k : String) : Value :=
  (getField o k).getD .vUndefined

/-- Property write: replace in place when the key exists, append otherwise
(JS property insertion-order semantics). -/
def setField : Obj → String → Value → Obj
  | [], k, v => [(k, v)]
  | e :: rest, k, v => if e.1 = k then (k, v) :: rest else e :: setField rest k v

/-- `Set.prototype.add` on an insertion-ordered string set. -/
def setAdd (l : List String) (s : String) : List String :=
  if s ∈ l then l else l ++ [s]

/-- JS `s.toLowerCase()`: lower-case every character.  This equals core's
`String.toLower` pointwise, but is defined by a structural map over the
character list so that concrete instances evaluate inside the kernel. -/
def jsToLower (s : String) : String :=
  ⟨s.data.map Char.toLower⟩

/-! ### String splitting primitives (JS `split`) -/

/-- JS `s.split(sep)` for a single-character separator, on character lists:
`"".split` is `[""]`, a trailing separator yields a trailing empty segment. -/
def splitCharsOn (sep : Char) : List Char → List (List Char)
  | [] => [[]]
  | c :: rest =>
    if c = sep then [] :: splitCharsOn sep rest
    else
      match splitCharsOn sep rest with
      | [] => [[c]]
      | h :: t => (c :: h) :: t

/-- JS `content.split("\n")`. -/
def splitLines (s : String) : List String :=
  (splitCharsOn '\n' s.data).map String.mk

/-- JS `line.split("#")`. -/
def splitHash (s : String) : List String :=
  (splitCharsOn '#' s.data).map String.mk

/-- Word accumulator for `line.trim().split(/\s+/)`: the words of a character
list, splitting on whitespace runs and discarding empty pieces. -/
def wordsOfAux : List Char → List Char → List (List Char)
  | [], acc => if acc = [] then [] else [acc.reverse]
  | c :: rest, acc =>
    if c.isWhitespace then
      if acc = [] then wordsOfAux rest [] else acc.reverse :: wordsOfAux rest []
    else wordsOfAux rest (c :: acc)

/-- JS `line.trim().split(/\s+/)` (the script's `splitByWhitespace`): the
whitespace-separated words of the line, except that a line with no word at all
yields `[""]` exactly as in JS. -/
def splitByWhitespace (line : String) : List String :=
  match wordsOfAux line.data [] with
  | [] => [""]
  | ws => ws.map String.mk

/-- The characters of the literal `docTriagers:` marker. -/
def docMarker : List Char := "docTriagers:".data

/-- The characters of the literal `codeTriagers:` marker. -/
def codeMarker : List Char := "codeTriagers:".data

/-- Scanner for JS `comment.split(/docTriagers:|codeTriagers:/)`: scan left to
right, and at each leftmost marker occurrence end the current segment and skip
the matched marker.  `fuel` only makes the recursion structural; it is always
called with at least the input length, which the first argument of every
recursive call preserves. -/
def splitMarkersGo : Nat → List Char → List Char → List (List Char)
  | _, [], acc => [acc.reverse]
  | 0, input, acc => [acc.reverse ++ input]
  | fuel + 1, c :: rest, acc =>
    if docMarker.isPrefixOf (c :: rest) then
      acc.reverse :: splitMarkersGo fuel (rest.drop 11) []
    else if codeMarker.isPrefixOf (c :: rest) then
      acc.reverse :: splitMarkersGo fuel (rest.drop 12) []
    else splitMarkersGo fuel rest (c :: acc)

/-- JS `comment.split(/docTriagers:|codeTriagers:/)`. -/
def splitMarkers (s : String) : List String :=
  (splitMarkersGo s.data.length s.data []).map String.mk

/-! ### Owner extraction (`extractGitHubUsernames`) -/

/-- JS `owner.startsWith("@")`: the first character is `@`.  (Defined on the
character list so that concrete instances evaluate inside the kernel.) -/
def startsWithAt (t : String) : Bool :=
  match t.data with
  | c :: _ => c == '@'
  | [] => false

/-- JS `owner.includes("/")` for the single-character needle `/`. -/
def containsSlash (t : String) : Bool :=
  t.data.contains '/'

/-- JS `owner.slice(1)`: remove the first character (the leading `@`). -/
def sliceFromOne (t : String) : String :=
  ⟨t.data.drop 1⟩

/-- The acceptance test of the standard declaration path:
`owner.startsWith("@") && !owner.includes("/")`. -/
def acceptOwner (t : String) : Bool :=
  startsWithAt t && !(containsSlash t)

/-- One candidate of the standard declaration path: an accepted candidate is
added to the set with the `@` stripped, a rejected one is recorded as a
warned-about skipped token. -/
def nativeStep (st : List String × List String) (owner : String) :
    List String × List String :=
  if acceptOwner owner then (setAdd st.1 (sliceFromOne owner), st.2)
  else (st.1, st.2 ++ [owner])

/-- One line of `extractGitHubUsernames`: split off the comment at `#`, first
add every whitespace token after a `docTriagers:`/`codeTriagers:` marker of the
comment verbatim (when that split piece is truthy), then run the standard
declaration path on the tokens of the pre-`#` part, discarding the first
(the path pattern). -/
def processLine (st : List String × List String) (line : String) :
    List String × List String :=
  let parts := splitHash line
  let ownersLine := parts.headD ""
  let comment := (parts.get? 1).getD ""
  let st1 :=
    match (splitMarkers comment).get? 1 with
    | some t => if t = "" then st else ((splitByWhitespace t).foldl setAdd st.1, st.2)
    | none => st
  ((splitByWhitespace ownersLine).drop 1).foldl nativeStep st1

/-- `extractGitHubUsernames(codeownersContent, core)`: the insertion-ordered
set of extracted owner identifiers, paired with the list of skipped tokens
reported through `core.warning`.  Empty (falsy) content yields no owners. -/
def extractGitHubUsernames (content : String) : List String × List String :=
  if content = "" then ([], [])
  else (splitLines content).foldl processLine ([], [])

/-! ### Maintainer collection (`collectCurrentMaintainers`) -/

/-- One ownership document: `{ repo, content }`. -/
structure CodeownersFile where
  repo : String
  content : String

/-- The current-maintainer map: an insertion-ordered map from lower-cased
username to maintainer entry. -/
abbrev CMap := List (String × Obj)

/-- JS `currentMaintainers[key]` read. -/
def cmFind (m : CMap) (k : String) : Option Obj :=
  (m.find? (fun e => e.1 == k)).map (fun e => e.2)

/-- JS `currentMaintainers[key] = v`. -/
def cmSet : CMap → String → Obj → CMap
  | [], k, v => [(k, v)]
  | e :: rest, k, v => if e.1 = k then (k, v) :: rest else e :: cmSet rest k v

/-- JS `delete currentMaintainers[key]` (remaining entries keep their order). -/
def cmDelete (m : CMap) (k : String) : CMap :=
  m.filter (fun e => !(e.1 == k))

/-- JS `entry.repos.push(repo)`.  Entries are always created with a `repos`
array, so the fallback branch is unreachable in the collector. -/
def pushRepo (o : Obj) (r : String) : Obj :=
  match getField o "repos" with
  | some (.vStrs l) => setField o "repos" (.vStrs (l ++ [r]))
  | _ => o

/-- JS `currentMaintainers[key].repos.push(repo)`. -/
def cmPushRepo (m : CMap) (k : String) (r : String) : CMap :=
  m.map (fun e => if e.1 == k then (e.1, pushRepo e.2 r) else e)

/-- The body of the collector's inner loop, for one extracted owner of the
document of repository `repo`.  State: the map being built and the list of
usernames passed to `getGitHubProfile` so far.  Mirrors the source: skip when
the verbatim owner is in `ignoredUsers`; key by the lower-cased owner; when the
key is absent, call the lookup with the verbatim owner, and on a missing
profile add nothing; otherwise create the entry `{ ...profile, repos: [] }`;
finally push the repository name. -/
def processOwner (lookup : String → Option Obj) (ignoredUsers : List String)
    (repo : String) (st : CMap × List String) (owner : String) :
    CMap × List String :=
  if owner ∈ ignoredUsers then st
  else
    let key := jsToLower owner
    match cmFind st.1 key with
    | some _ => (cmPushRepo st.1 key repo, st.2)
    | none =>
      match lookup owner with
      | none => (st.1, st.2 ++ [owner])
      | some profile =>
        (cmPushRepo (cmSet st.1 key (setField profile "repos" (.vStrs []))) key repo,
         st.2 ++ [owner])

/-- `collectCurrentMaintainers(codeownersFiles, github, core)`: fold the inner
loop over the extracted owners of every document, in document order.  Returns
the built map together with the list of usernames passed to the external
profile lookup, in call order. -/
def collectCurrentMaintainers (files : List CodeownersFile)
    (lookup : String → Option Obj) (ignoredUsers : List String) :
    CMap × List String :=
  files.foldl
    (fun st f => ((extractGitHubUsernames f.content).1).foldl
      (processOwner lookup ignoredUsers f.repo) st)
    ([], [])

/-! ### Roster reconciliation (`refreshPreviousMaintainers`) -/

/-- The updated record for a matched previous maintainer:
`{ ...previousEntry, repos: currentMaintainer.repos, githubID: currentMaintainer.githubID }`. -/
def mergeRecord (prev cm : Obj) : Obj :=
  setField (setField prev "repos" (getFieldD cm "repos")) "githubID" (getFieldD cm "githubID")

/-- The loop of `refreshPreviousMaintainers`: walk the previous roster in
order; a record whose key is (still) in the map consumes (deletes) that entry
and yields the merged record; a record whose key is absent is dropped and its
`github` name is reported as a removal.  Returns the updated records, the map
after all deletions, and the removal reports.  `none` models the JS
`TypeError` on a record without a string `github` field. -/
def refreshLoop : List Obj → CMap → Option (List Obj × CMap × List String)
  | [], current => some ([], current, [])
  | p :: rest, current =>
    match getField p "github" with
    | some (.vStr g) =>
      let key := jsToLower g
      match cmFind current key with
      | none =>
        match refreshLoop rest current with
        | some (upd, m, rem) => some (upd, m, g :: rem)
        | none => none
      | some cm =>
        match refreshLoop rest (cmDelete current key) with
        | some (upd, m, rem) => some (mergeRecord p cm :: upd, m, rem)
        | none => none
    | _ => none

/-- `refreshPreviousMaintainers(previousMaintainers, currentMaintainers, core)`:
the updated previous records followed by the values still in the (mutated) map,
together with that final map (the caller-visible mutation of
`currentMaintainers`) and the reported removals. -/
def refreshPreviousMaintainers (previous : List Obj) (current : CMap) :
    Option (List Obj × CMap × List String) :=
  (refreshLoop previous current).map
    (fun r => (r.1 ++ r.2.1.map (fun e => e.2), r.2.1, r.2.2))

/-- The number of occurrences of repository `r` in the `repos` list of an
entry (0 when the list is absent). -/
def reposCountOf (e : Obj) (r : String) : Nat :=
  match getField e "repos" with
  | some (.vStrs l) => l.count r
  | _ => 0

/-- The number of occurrences of repository `r` in the `repos` list of the
entry keyed `k` (0 when the key is absent). -/
def repoCount (m : CMap) (k r : String) : Nat :=
  match cmFind m k with
  | some e => reposCountOf e r
  | none => 0

/-- Does some record of the previous roster bear the current-map key `k`
(by its lower-cased string `github` field)? -/
def matchedBy (prev : List Obj) (k : String) : Bool :=
  prev.any fun p =>
    match getField p "github" with
    | some (.vStr g) => jsToLower g == k
    | _ => false

/-- Specification-side reconciliation loop for the amended claim C3, written
with an explicit consumed-key set over the ORIGINAL current map instead of
deletion from a mutable map: walking the previous roster in order, a record
whose key is already consumed, or absent from the map, is dropped with a
removal report; otherwise it is updated and its key becomes consumed.
Returns (updated records, removal reports, final consumed keys). -/
def reconcileSpecLoop (cur : CMap) : List Obj → List String →
    Option (List Obj × List String × List String)
  | [], consumed => some ([], [], consumed)
  | p :: rest, consumed =>
    match getField p "github" with
    | some (.vStr g) =>
      let key := jsToLower g
      if key ∈ consumed then
        match reconcileSpecLoop cur rest consumed with
        | some (upd, rem, c) => some (upd, g :: rem, c)
        | none => none
      else
        match cmFind cur key with
        | none =>
          match reconcileSpecLoop cur rest consumed with
          | some (upd, rem, c) => some (upd, g :: rem, c)
          | none => none
        | some cm =>
          match reconcileSpecLoop cur rest (key :: consumed) with
          | some (upd, rem, c) => some (mergeRecord p cm :: upd, rem, c)
          | none => none
    | _ => none

/-- Specification-side reconciliation for the amended claim C3: the updated
previous records (first bearer of each matched key, in original order)
followed by one fresh record for every current-map key not matched by any
previous record, in map insertion order; also returns that unmatched
remainder of the map and the removal reports. -/
def reconcileSpec (prev : List Obj) (cur : CMap) :
    Option (List Obj × CMap × List String) :=
  (reconcileSpecLoop cur prev []).map fun r =>
    let fresh := cur.filter fun e => !(matchedBy prev e.1)
    (r.1 ++ fresh.map (fun e => e.2), fresh, r.2.1)

/-- Deletion of a set of keys from the map, preserving the order of the
remaining entries (iterated `delete currentMaintainers[key]`). -/
def cmDeleteAll (ks : List String) (m : CMap) : CMap :=
  m.filter (fun e => !(ks.contains e.1))

/-- The collector invariant behind the amended claim C1: with a total lookup,
the usernames passed to the lookup so far have pairwise distinct lower-cased
forms, and each of them already keys an entry of the map. -/
def collectInv (st : CMap × List String) : Prop :=
  (st.2.map jsToLower).Nodup ∧ ∀ u ∈ st.2, (cmFind st.1 (jsToLower u)).isSome

/-! ### Concrete data used by witnesses and counterexamples -/

/-- A total profile lookup: every username resolves to a minimal profile. -/
def lookupSome : String → Option Obj :=
  fun u => some [("github", .vStr u), ("githubID", .vStr "1")]

/-- A profile lookup that finds nobody (account deleted/renamed). -/
def lookupNone : String → Option Obj :=
  fun _ => none

/-- A previous roster record for `eve` carrying an out-of-band `slack` field. -/
def recEve : Obj :=
  [("github", .vStr "eve"), ("slack", .vStr "#team-x"), ("repos", .vStrs ["old"])]

/-- A current-maintainer entry for `eve` as the collector would build it. -/
def entryEve : Obj :=
  [("github", .vStr "eve"), ("githubID", .vStr "7"), ("repos", .vStrs ["R1"])]

/-- A current-maintainer map holding a single entry for `eve`. -/
def curEve : CMap :=
  [("eve", entryEve)]

/-- A current-maintainer entry for a newly discovered maintainer `bob`. -/
def entryBob : Obj :=
  [("github", .vStr "bob"), ("githubID", .vStr "9"), ("repos", .vStrs ["R2"])]

/-- A current-maintainer map with the previously known `eve` and the newly
discovered `bob`. -/
def curEveBob : CMap :=
  [("eve", entryEve), ("bob", entryBob)]

/-! ### Counterexamples and concrete results -/

/-- Claim C6 is false on the code: for the line `# docTriagers: @bob @carol`
the extraction result does not contain `bob` (nor `carol`) — the triager path
adds tokens verbatim, without stripping the `@`. -/
theorem C6_counterexample :
    "bob" ∉ (extractGitHubUsernames "# docTriagers: @bob @carol").1 ∧
    "carol" ∉ (extractGitHubUsernames "# docTriagers: @bob @carol").1 := by
  decide

/-- Claim C6 amended: for the line `# docTriagers: @bob @carol` with no
declaration-side owners, extraction yields exactly the verbatim token set
`{@bob, @carol}` — triager tokens keep their leading `@`. -/
theorem C6_amended_theorem :
    (extractGitHubUsernames "# docTriagers: @bob @carol").1 = ["@bob", "@carol"] := by
  decide

/-- Claim C9 is false on the code: in a comment containing both markers,
`docTriagers: alpha codeTriagers: beta`, the token `beta` after the second
marker is NOT accepted — the split piece taken is only the segment between the
first marker and the next marker occurrence, here yielding exactly `{alpha}`. -/
theorem C9_counterexample :
    "beta" ∉ (extractGitHubUsernames "#docTriagers: alpha codeTriagers: beta").1 ∧
    (extractGitHubUsernames "#docTriagers: alpha codeTriagers: beta").1 = ["alpha"] := by
  decide

/-- Claim C1 is false on the code: when the profile lookup finds no profile,
no map entry is created, so a second document declaring the same username
re-issues the lookup — here `ghost` is looked up twice in one collection
pass, where the claim allows at most one lookup per lower-cased username. -/
theorem C1_counterexample :
    ((collectCurrentMaintainers [⟨"A", "* @ghost"⟩, ⟨"B", "* @ghost"⟩] lookupNone []).2.map
      jsToLower).count "ghost" = 2 := by
  decide

/-- Claim C7 is false on the code: the ignore test compares the verbatim
extracted owner against `ignoredUsers`, not its lower-cased form.  With
`ignoredUsers = ["alice"]` and a document declaring `@Alice`, the lower-cased
form `alice` is in the ignore list, yet the user both triggers a profile
lookup (for `Alice`) and enters the map (under key `alice`). -/
theorem C7_counterexample :
    jsToLower "Alice" ∈ ["alice"] ∧
    ((collectCurrentMaintainers [⟨"A", "* @Alice"⟩] lookupSome ["alice"]).1).map Prod.fst
      = ["alice"] ∧
    (collectCurrentMaintainers [⟨"A", "* @Alice"⟩] lookupSome ["alice"]).2 = ["Alice"] := by
  decide

/-- Claim C8 is false on the code: within the single document `* @Alice @alice`
of repository `R`, the two case variants survive extraction's per-document
set separately, so `R` is appended twice to the `repos` list of the one entry
keyed `alice`. -/
theorem C8_counterexample :
    (cmFind (collectCurrentMaintainers [⟨"R", "* @Alice @alice"⟩] lookupSome []).1 "alice").map
      (fun e => getField e "repos") = some (some (.vStrs ["R", "R"])) := by
  decide

/-- Claim C3 is false on the code as universally stated: with a previous
roster holding two records for `eve` and a current map whose key set contains
`eve`, both records have their key in the current map, yet the output holds
only one updated record — the first consumed (deleted) the entry, so the
second was dropped and reported as a removal. -/
theorem C3_counterexample :
    (cmFind curEve (jsToLower "eve")).isSome = true ∧
    refreshPreviousMaintainers [recEve, recEve] curEve =
      some ([[("github", .vStr "eve"), ("slack", .vStr "#team-x"),
              ("repos", .vStrs ["R1"]), ("githubID", .vStr "7")]], [], ["eve"]) :=
  ⟨by decide, by rfl⟩

/-! ### Basic lemmas on objects and the maintainer map -/

theorem getField_cons (e : String × Value) (l : Obj) (k : String) :
    getField (e :: l) k = if e.1 = k then some e.2 else getField l k := by
  by_cases h : e.1 = k <;> simp [getField, List.find?_cons, h]

theorem getField_setField_self (o : Obj) (k : String) (v : Value) :
    getField (setField o k v) k = some v := by
  induction o with
  | nil => simp [setField, getField_cons, getField]
  | cons e rest ih =>
    by_cases h : e.1 = k
    · simp [setField, h, getField_cons]
    · simp [setField, h, getField_cons, ih]

theorem getField_setField_ne (o : Obj) (k k' : String) (v : Value) (h : k' ≠ k) :
    getField (setField o k v) k' = getField o k' := by
  have h' : ¬ (k = k') := fun hh => h hh.symm
  induction o with
  | nil => simp [setField, getField_cons, getField, h']
  | cons e rest ih =>
    obtain ⟨e1, e2⟩ := e
    by_cases he : e1 = k
    · subst he
      simp [setField, getField_cons, h']
    · simp [setField, he, getField_cons, ih]

theorem cmFind_cons (e : String × Obj) (l : CMap) (k : String) :
    cmFind (e :: l) k = if e.1 = k then some e.2 else cmFind l k := by
  by_cases h : e.1 = k <;> simp [cmFind, List.find?_cons, h]

theorem cmFind_cmSet_self (m : CMap) (k : String) (v : Obj) :
    cmFind (cmSet m k v) k = some v := by
  induction m with
  | nil => simp [cmSet, cmFind_cons, cmFind]
  | cons e rest ih =>
    by_cases h : e.1 = k
    · simp [cmSet, h, cmFind_cons]
    · simp [cmSet, h, cmFind_cons, ih]

theorem cmFind_cmSet_ne (m : CMap) (k k' : String) (v : Obj) (h : k' ≠ k) :
    cmFind (cmSet m k v) k' = cmFind m k' := by
  have h' : ¬ (k = k') := fun hh => h hh.symm
  induction m with
  | nil => simp [cmSet, cmFind_cons, cmFind, h']
  | cons e rest ih =>
    obtain ⟨e1, e2⟩ := e
    by_cases he : e1 = k
    · subst he
      simp [cmSet, cmFind_cons, h']
    · simp [cmSet, he, cmFind_cons, ih]

theorem cmPushRepo_cons (e : String × Obj) (l : CMap) (k r : String) :
    cmPushRepo (e :: l) k r =
      (if e.1 = k then (e.1, pushRepo e.2 r) else e) :: cmPushRepo l k r := by
  by_cases h : e.1 = k <;> simp [cmPushRepo, h]

theorem cmFind_cmPushRepo (m : CMap) (k k' r : String) :
    cmFind (cmPushRepo m k r) k' =
      (cmFind m k').map (fun e => if k = k' then pushRepo e r else e) := by
  induction m with
  | nil => simp [cmPushRepo, cmFind]
  | cons e rest ih =>
    obtain ⟨e1, e2⟩ := e
    by_cases hk : e1 = k
    · subst hk
      by_cases he : e1 = k'
      · subst he
        simp [cmPushRepo_cons, cmFind_cons]
      · simp [cmPushRepo_cons, cmFind_cons, he, ih]
    · by_cases he : e1 = k'
      · subst he
        have hne : ¬ (k = e1) := fun hh => hk hh.symm
        simp [cmPushRepo_cons, cmFind_cons, hk, hne]
      · simp [cmPushRepo_cons, cmFind_cons, hk, he, ih]

/-- Claim C4 (confirmed): for a previous record `p` (with string `github`
field `g`) matched by the current-map entry `cm`, the reconciler's updated
output record is `mergeRecord p cm`, which overwrites exactly the `repos` and
`githubID` fields from the current entry and passes every other field of the
previous record through unchanged. -/
theorem C4_update_overwrites_only_repos_and_githubID
    (p : Obj) (g : String) (cm : Obj) (cur : CMap)
    (hg : getField p "github" = some (.vStr g))
    (hc : cmFind cur (jsToLower g) = some cm) :
    refreshPreviousMaintainers [p] cur =
      some (mergeRecord p cm :: (cmDelete cur (jsToLower g)).map (fun e => e.2),
            cmDelete cur (jsToLower g), []) ∧
    getField (mergeRecord p cm) "repos" = some (getFieldD cm "repos") ∧
    getField (mergeRecord p cm) "githubID" = some (getFieldD cm "githubID") ∧
    ∀ f, f ≠ "repos" → f ≠ "githubID" →
      getField (mergeRecord p cm) f = getField p f := by
  refine ⟨?_, ?_, ?_, ?_⟩
  · simp [refreshPreviousMaintainers, refreshLoop, hg, hc]
  · have h1 : ("repos" : String) ≠ "githubID" := by decide
    simp [mergeRecord, getField_setField_ne _ _ _ _ h1, getField_setField_self]
  · simp [mergeRecord, getField_setField_self]
  · intro f hf1 hf2
    simp [mergeRecord, getField_setField_ne _ _ _ _ hf2, getField_setField_ne _ _ _ _ hf1]

/-- Witness for C4 at the concrete record `recEve` (carrying a `slack` field)
and the concrete map `curEve`: the updated record keeps `slack` unchanged and
takes `repos`/`githubID` from the entry. -/
theorem C4_witness :
    refreshPreviousMaintainers [recEve] curEve =
      some (mergeRecord recEve entryEve :: (cmDelete curEve (jsToLower "eve")).map (fun e => e.2),
            cmDelete curEve (jsToLower "eve"), []) ∧
    getField (mergeRecord recEve entryEve) "slack" = getField recEve "slack" :=
  ⟨(C4_update_overwrites_only_repos_and_githubID recEve "eve" entryEve curEve
      (by decide) (by decide)).1,
   (C4_update_overwrites_only_repos_and_githubID recEve "eve" entryEve curEve
      (by decide) (by decide)).2.2.2 "slack" (by decide) (by decide)⟩

/-- Claim C2 (confirmed): a username declared (in any letter case) in two
documents from repositories `rA` and `rB`, with the same lower-cased form, a
successful profile lookup and no ignore-list hit, produces exactly one
current-maintainer entry, keyed by the lower-cased username, whose `repos`
list is `[rA, rB]` in document-processing order. -/
theorem C2_case_insensitive_merge
    (u1 u2 c1 c2 rA rB : String) (prof : Obj)
    (lookup : String → Option Obj) (ign : List String)
    (h1 : (extractGitHubUsernames c1).1 = [u1])
    (h2 : (extractGitHubUsernames c2).1 = [u2])
    (hcase : jsToLower u1 = jsToLower u2)
    (hi1 : u1 ∉ ign) (hi2 : u2 ∉ ign)
    (hl : lookup u1 = some prof) :
    ((collectCurrentMaintainers [⟨rA, c1⟩, ⟨rB, c2⟩] lookup ign).1).map Prod.fst
      = [jsToLower u1] ∧
    ((cmFind (collectCurrentMaintainers [⟨rA, c1⟩, ⟨rB, c2⟩] lookup ign).1
        (jsToLower u1)).map (fun e => getField e "repos"))
      = some (some (.vStrs [rA, rB])) := by
  have step1 :
      (collectCurrentMaintainers [⟨rA, c1⟩, ⟨rB, c2⟩] lookup ign) =
        ((extractGitHubUsernames c2).1).foldl (processOwner lookup ign rB)
          (((extractGitHubUsernames c1).1).foldl (processOwner lookup ign rA) ([], [])) := by
    simp [collectCurrentMaintainers]
  have hA : processOwner lookup ign rA ([], []) u1 =
      ([(jsToLower u1, pushRepo (setField prof "repos" (.vStrs [])) rA)], [u1]) := by
    simp [processOwner, hi1, cmFind, hl, cmSet, cmPushRepo]
  have hpush0 : pushRepo (setField prof "repos" (.vStrs [])) rA =
      setField (setField prof "repos" (.vStrs [])) "repos" (.vStrs [rA]) := by
    simp [pushRepo, getField_setField_self]
  have hB : processOwner lookup ign rB
        ([(jsToLower u1, setField (setField prof "repos" (.vStrs [])) "repos" (.vStrs [rA]))], [u1]) u2 =
      ([(jsToLower u1,
         pushRepo (setField (setField prof "repos" (.vStrs [])) "repos" (.vStrs [rA])) rB)], [u1]) := by
    simp [processOwner, hi2, ← hcase, cmFind_cons, cmPushRepo]
  have hpush1 : pushRepo (setField (setField prof "repos" (.vStrs [])) "repos" (.vStrs [rA])) rB =
      setField (setField (setField prof "repos" (.vStrs [])) "repos" (.vStrs [rA])) "repos"
        (.vStrs [rA, rB]) := by
    simp [pushRepo, getField_setField_self]
  rw [step1, h1, h2]
  simp only [List.foldl]
  rw [hA, hpush0, hB, hpush1]
  constructor
  · simp
  · simp [cmFind_cons, getField_setField_self]

/-- Witness for C2: `@Alice` in repository `A` and `@alice` in repository `B`
collapse into the single entry keyed `alice` with `repos = [A, B]`. -/
theorem C2_witness :
    ((collectCurrentMaintainers [⟨"A", "* @Alice"⟩, ⟨"B", "* @alice"⟩] lookupSome []).1).map Prod.fst
      = [jsToLower "Alice"] ∧
    ((cmFind (collectCurrentMaintainers [⟨"A", "* @Alice"⟩, ⟨"B", "* @alice"⟩] lookupSome []).1
        (jsToLower "Alice")).map (fun e => getField e "repos"))
      = some (some (.vStrs ["A", "B"])) :=
  C2_case_insensitive_merge "Alice" "alice" "* @Alice" "* @alice" "A" "B"
    [("github", .vStr "Alice"), ("githubID", .vStr "1")] lookupSome []
    (by decide) (by decide) (by decide) (by decide) (by decide) rfl

theorem reposCountOf_pushRepo_le (e : Obj) (r : String) :
    reposCountOf (pushRepo e r) r ≤ reposCountOf e r + 1 := by
  cases hg : getField e "repos" with
  | none => simp [pushRepo, reposCountOf, hg]
  | some v =>
    cases v with
    | vStr s => simp [pushRepo, reposCountOf, hg]
    | vUndefined => simp [pushRepo, reposCountOf, hg]
    | vStrs l =>
      simp [pushRepo, reposCountOf, hg, getField_setField_self, List.count_append]

theorem repoCount_cmPushRepo_le (m : CMap) (k' k r : String) :
    repoCount (cmPushRepo m k' r) k r ≤
      repoCount m k r + (if k' = k then 1 else 0) := by
  unfold repoCount
  rw [cmFind_cmPushRepo]
  cases hf : cmFind m k with
  | none => simp
  | some e =>
    by_cases hk : k' = k
    · simpa [hk] using reposCountOf_pushRepo_le e r
    · simp [hk]

theorem repoCount_processOwner_le (lookup : String → Option Obj)
    (ign : List String) (r : String) (st : CMap × List String) (o : String)
    (k : String) :
    repoCount ((processOwner lookup ign r st o).1) k r ≤
      repoCount st.1 k r + (if jsToLower o = k then 1 else 0) := by
  unfold processOwner
  by_cases hi : o ∈ ign
  · simp [hi]
  · simp only [hi, if_false, ite_false, if_neg hi]
    cases hf : cmFind st.1 (jsToLower o) with
    | some e =>
      simpa using repoCount_cmPushRepo_le st.1 (jsToLower o) k r
    | none =>
      cases hl : lookup o with
      | none => simp
      | some prof =>
        simp only
        by_cases hk : jsToLower o = k
        · subst hk
          have h1 := repoCount_cmPushRepo_le
            (cmSet st.1 (jsToLower o) (setField prof "repos" (.vStrs []))) (jsToLower o)
            (jsToLower o) r
          have h2 : repoCount (cmSet st.1 (jsToLower o) (setField prof "repos" (.vStrs [])))
              (jsToLower o) r = 0 := by
            simp [repoCount, cmFind_cmSet_self, reposCountOf, getField_setField_self]
          simp only [if_pos rfl] at h1 ⊢
          omega
        · have h1 := repoCount_cmPushRepo_le
            (cmSet st.1 (jsToLower o) (setField prof "repos" (.vStrs []))) (jsToLower o) k r
          have h2 : repoCount (cmSet st.1 (jsToLower o) (setField prof "repos" (.vStrs []))) k r =
              repoCount st.1 k r := by
            unfold repoCount
            rw [cmFind_cmSet_ne _ _ _ _ (fun hh => hk hh.symm)]
          simp only [if_neg hk] at h1 ⊢
          omega

theorem repoCount_foldOwners_le (lookup : String → Option Obj)
    (ign : List String) (r : String) (k : String) :
    ∀ (owners : List String) (st : CMap × List String),
    repoCount ((owners.foldl (processOwner lookup ign r) st).1) k r ≤
      repoCount st.1 k r + owners.countP (fun o => jsToLower o == k) := by
  intro owners
  induction owners with
  | nil => intro st; simp
  | cons o rest ih =>
    intro st
    have h1 := ih (processOwner lookup ign r st o)
    have h2 := repoCount_processOwner_le lookup ign r st o k
    have h3 : (if jsToLower o = k then 1 else 0) + rest.countP (fun o => jsToLower o == k)
        = (o :: rest).countP (fun o => jsToLower o == k) := by
      rw [List.countP_cons]
      by_cases hk : jsToLower o = k <;> simp [hk, Nat.add_comm]
    rw [List.foldl_cons]
    omega

/-- Claim C8 amended: within a single ownership document, a repository name
is appended to a given entry's `repos` list at most once per distinct verbatim
case variant of the username — the count of the repository in the entry keyed
`k` is bounded by the number of extracted owners of the document whose
lower-cased form is `k`.  (Extraction de-duplicates identical tokens, so a
username always written with the same letter case appends the repository at
most once; distinct case variants each append it, as the counterexample
shows.) -/
theorem C8_amended_repo_appended_once_per_case_variant (c r : String) (lookup : String → Option Obj)
    (ign : List String) (k : String) :
    repoCount ((collectCurrentMaintainers [⟨r, c⟩] lookup ign).1) k r ≤
      ((extractGitHubUsernames c).1).countP (fun o => jsToLower o == k) := by
  have hc : (collectCurrentMaintainers [⟨r, c⟩] lookup ign) =
      ((extractGitHubUsernames c).1).foldl (processOwner lookup ign r) ([], []) := by
    simp [collectCurrentMaintainers]
  rw [hc]
  have h := repoCount_foldOwners_le lookup ign r k ((extractGitHubUsernames c).1) ([], [])
  simpa [repoCount, cmFind] using h

theorem processOwner_ignored (lookup : String → Option Obj) (ign : List String)
    (r : String) (st : CMap × List String) (o : String) (hi : o ∈ ign) :
    processOwner lookup ign r st o = st := by
  simp [processOwner, hi]

theorem processOwner_found (lookup : String → Option Obj) (ign : List String)
    (r : String) (st : CMap × List String) (o : String) (e : Obj)
    (hi : o ∉ ign) (hf : cmFind st.1 (jsToLower o) = some e) :
    processOwner lookup ign r st o = (cmPushRepo st.1 (jsToLower o) r, st.2) := by
  simp [processOwner, hi, hf]

theorem processOwner_missing (lookup : String → Option Obj) (ign : List String)
    (r : String) (st : CMap × List String) (o : String)
    (hi : o ∉ ign) (hf : cmFind st.1 (jsToLower o) = none) (hl : lookup o = none) :
    processOwner lookup ign r st o = (st.1, st.2 ++ [o]) := by
  simp [processOwner, hi, hf, hl]

theorem processOwner_new (lookup : String → Option Obj) (ign : List String)
    (r : String) (st : CMap × List String) (o : String) (prof : Obj)
    (hi : o ∉ ign) (hf : cmFind st.1 (jsToLower o) = none) (hl : lookup o = some prof) :
    processOwner lookup ign r st o =
      (cmPushRepo (cmSet st.1 (jsToLower o) (setField prof "repos" (.vStrs []))) (jsToLower o) r,
       st.2 ++ [o]) := by
  simp [processOwner, hi, hf, hl]

theorem cmFind_isSome_cmPushRepo (m : CMap) (k k' r : String) :
    (cmFind (cmPushRepo m k r) k').isSome = (cmFind m k').isSome := by
  rw [cmFind_cmPushRepo]
  cases cmFind m k' <;> simp

theorem collectInv_processOwner (lookup : String → Option Obj)
    (ign : List String) (r : String) (st : CMap × List String) (o : String)
    (htot : ∀ u, (lookup u).isSome)
    (h : collectInv st) : collectInv (processOwner lookup ign r st o) := by
  obtain ⟨hnd, hmem⟩ := h
  by_cases hi : o ∈ ign
  · rw [processOwner_ignored lookup ign r st o hi]
    exact ⟨hnd, hmem⟩
  · cases hf : cmFind st.1 (jsToLower o) with
    | some e =>
      rw [processOwner_found lookup ign r st o e hi hf]
      refine ⟨hnd, fun u hu => ?_⟩
      rw [cmFind_isSome_cmPushRepo]
      exact hmem u hu
    | none =>
      cases hl : lookup o with
      | none =>
        have := htot o
        rw [hl] at this
        simp at this
      | some prof =>
        rw [processOwner_new lookup ign r st o prof hi hf hl]
        constructor
        · rw [List.map_append]
          refine List.Nodup.append hnd (by simp) ?_
          intro x hx hy
          simp only [List.map_cons, List.map_nil, List.mem_singleton] at hy
          subst hy
          obtain ⟨u, hu, hxu⟩ := List.mem_map.mp hx
          have hs := hmem u hu
          rw [hxu, hf] at hs
          simp at hs
        · intro u hu
          rw [List.mem_append] at hu
          rcases hu with hu | hu
          · rw [cmFind_isSome_cmPushRepo]
            by_cases hk : jsToLower u = jsToLower o
            · rw [hk, cmFind_cmSet_self]
              simp
            · rw [cmFind_cmSet_ne _ _ _ _ hk]
              exact hmem u hu
          · simp only [List.mem_singleton] at hu
            subst hu
            rw [cmFind_isSome_cmPushRepo, cmFind_cmSet_self]
            simp

theorem collectInv_foldOwners (lookup : String → Option Obj) (ign : List String)
    (r : String) (htot : ∀ u, (lookup u).isSome) :
    ∀ (owners : List String) (st : CMap × List String),
    collectInv st → collectInv (owners.foldl (processOwner lookup ign r) st) := by
  intro owners
  induction owners with
  | nil => intro st h; simpa using h
  | cons o rest ih =>
    intro st h
    rw [List.foldl_cons]
    exact ih _ (collectInv_processOwner lookup ign r st o htot h)

theorem collectInv_collect (files : List CodeownersFile)
    (lookup : String → Option Obj) (ign : List String)
    (htot : ∀ u, (lookup u).isSome) :
    collectInv (collectCurrentMaintainers files lookup ign) := by
  have main : ∀ (fs : List CodeownersFile) (st : CMap × List String),
      collectInv st →
      collectInv (fs.foldl
        (fun st f => ((extractGitHubUsernames f.content).1).foldl
          (processOwner lookup ign f.repo) st) st) := by
    intro fs
    induction fs with
    | nil => intro st h; simpa using h
    | cons f rest ih =>
      intro st h
      rw [List.foldl_cons]
      exact ih _ (collectInv_foldOwners lookup ign f.repo htot _ st h)
  have h0 : collectInv (([], []) : CMap × List String) := by
    constructor
    · simp
    · intro u hu; simp at hu
  exact main files ([], []) h0

/-- Claim C1 amended: provided every issued lookup returns a profile, the
collector calls the external profile lookup at most once per unique
lower-cased username.  (When a lookup returns no profile no entry is created,
and a later document declaring the same username re-issues the lookup, as the
counterexample shows.) -/
theorem C1_amended_lookup_once_when_profiles_found (files : List CodeownersFile)
    (lookup : String → Option Obj) (ign : List String) (k : String)
    (htot : ∀ u, (lookup u).isSome) :
    (((collectCurrentMaintainers files lookup ign).2).map jsToLower).count k ≤ 1 :=
  List.nodup_iff_count_le_one.mp (collectInv_collect files lookup ign htot).1 k

/-- Witness for the amended C1: with a total lookup, `@Alice` and `@alice`
declared in two documents trigger at most one lookup for the lower-cased
username `alice`. -/
theorem C1_witness :
    (((collectCurrentMaintainers [⟨"A", "* @Alice"⟩, ⟨"B", "* @alice"⟩] lookupSome []).2).map
      jsToLower).count "alice" ≤ 1 :=
  C1_amended_lookup_once_when_profiles_found [⟨"A", "* @Alice"⟩, ⟨"B", "* @alice"⟩] lookupSome [] "alice"
    (fun u => by simp [lookupSome])

theorem keys_cmPushRepo (m : CMap) (k r : String) :
    (cmPushRepo m k r).map Prod.fst = m.map Prod.fst := by
  induction m with
  | nil => simp [cmPushRepo]
  | cons e rest ih =>
    rw [cmPushRepo_cons]
    by_cases h : e.1 = k <;> simp [h, ih]

theorem mem_keys_cmSet (m : CMap) (k k' : String) (v : Obj)
    (h : k' ∈ (cmSet m k v).map Prod.fst) : k' = k ∨ k' ∈ m.map Prod.fst := by
  induction m with
  | nil => simpa [cmSet] using h
  | cons e rest ih =>
    by_cases he : e.1 = k
    · rw [show cmSet (e :: rest) k v = (k, v) :: rest by simp [cmSet, he]] at h
      simp only [List.map_cons, List.mem_cons] at h
      rcases h with h | h
      · exact Or.inl h
      · exact Or.inr (by simp [h])
    · rw [show cmSet (e :: rest) k v = e :: cmSet rest k v by simp [cmSet, he]] at h
      simp only [List.map_cons, List.mem_cons] at h
      rcases h with h | h
      · exact Or.inr (by simp [h])
      · rcases ih h with h | h
        · exact Or.inl h
        · exact Or.inr (by simp [h])

theorem calls_foldOwners (lookup : String → Option Obj) (ign : List String)
    (r : String) :
    ∀ (owners : List String) (st : CMap × List String),
    ∀ u ∈ (owners.foldl (processOwner lookup ign r) st).2,
      u ∈ st.2 ∨ (u ∈ owners ∧ u ∉ ign) := by
  intro owners
  induction owners with
  | nil => intro st u hu; exact Or.inl hu
  | cons o rest ih =>
    intro st u hu
    rw [List.foldl_cons] at hu
    rcases ih _ u hu with h | h
    · by_cases hi : o ∈ ign
      · rw [processOwner_ignored lookup ign r st o hi] at h
        exact Or.inl h
      · cases hf : cmFind st.1 (jsToLower o) with
        | some e =>
          rw [processOwner_found lookup ign r st o e hi hf] at h
          exact Or.inl h
        | none =>
          cases hl : lookup o with
          | none =>
            rw [processOwner_missing lookup ign r st o hi hf hl] at h
            simp only [List.mem_append, List.mem_singleton] at h
            rcases h with h | h
            · exact Or.inl h
            · exact Or.inr ⟨by simp [h], h ▸ hi⟩
          | some prof =>
            rw [processOwner_new lookup ign r st o prof hi hf hl] at h
            simp only [List.mem_append, List.mem_singleton] at h
            rcases h with h | h
            · exact Or.inl h
            · exact Or.inr ⟨by simp [h], h ▸ hi⟩
    · exact Or.inr ⟨by simp [h.1], h.2⟩

theorem keys_foldOwners (lookup : String → Option Obj) (ign : List String)
    (r : String) :
    ∀ (owners : List String) (st : CMap × List String),
    ∀ k ∈ ((owners.foldl (processOwner lookup ign r) st).1).map Prod.fst,
      k ∈ st.1.map Prod.fst ∨ ∃ o, o ∈ owners ∧ o ∉ ign ∧ jsToLower o = k := by
  intro owners
  induction owners with
  | nil => intro st k hk; exact Or.inl hk
  | cons o rest ih =>
    intro st k hk
    rw [List.foldl_cons] at hk
    rcases ih _ k hk with h | h
    · by_cases hi : o ∈ ign
      · rw [processOwner_ignored lookup ign r st o hi] at h
        exact Or.inl h
      · cases hf : cmFind st.1 (jsToLower o) with
        | some e =>
          rw [processOwner_found lookup ign r st o e hi hf] at h
          simp only [keys_cmPushRepo] at h
          exact Or.inl h
        | none =>
          cases hl : lookup o with
          | none =>
            rw [processOwner_missing lookup ign r st o hi hf hl] at h
            exact Or.inl h
          | some prof =>
            rw [processOwner_new lookup ign r st o prof hi hf hl] at h
            simp only [keys_cmPushRepo] at h
            rcases mem_keys_cmSet _ _ _ _ h with h | h
            · exact Or.inr ⟨o, by simp, hi, h.symm⟩
            · exact Or.inl h
    · obtain ⟨o', ho', hi', hk'⟩ := h
      exact Or.inr ⟨o', by simp [ho'], hi', hk'⟩

/-- Claim C7 amended: the ignore test is a verbatim (case-sensitive)
comparison.  Every username passed to the profile lookup is, verbatim, not an
element of `ignoredUsers`, and every key of the produced map is the
lower-cased form of some extracted owner whose verbatim form is not in
`ignoredUsers`.  A username is thus kept out of the map and the lookup only
when every case variant under which it is declared is listed verbatim; a
variant not listed verbatim passes through even if its lower-cased form is
listed, as the counterexample shows. -/
theorem C7_amended_ignore_is_verbatim (files : List CodeownersFile)
    (lookup : String → Option Obj) (ign : List String) :
    (∀ u ∈ (collectCurrentMaintainers files lookup ign).2, u ∉ ign) ∧
    (∀ k ∈ ((collectCurrentMaintainers files lookup ign).1).map Prod.fst,
      ∃ f, f ∈ files ∧ ∃ o, o ∈ (extractGitHubUsernames f.content).1 ∧
        o ∉ ign ∧ jsToLower o = k) := by
  have main : ∀ (fs : List CodeownersFile) (st : CMap × List String),
      (∀ u ∈ (fs.foldl
          (fun st f => ((extractGitHubUsernames f.content).1).foldl
            (processOwner lookup ign f.repo) st) st).2,
        u ∈ st.2 ∨ (∃ f, f ∈ fs ∧ u ∈ (extractGitHubUsernames f.content).1) ∧ u ∉ ign) ∧
      (∀ k ∈ ((fs.foldl
          (fun st f => ((extractGitHubUsernames f.content).1).foldl
            (processOwner lookup ign f.repo) st) st).1).map Prod.fst,
        k ∈ st.1.map Prod.fst ∨
          ∃ f, f ∈ fs ∧ ∃ o, o ∈ (extractGitHubUsernames f.content).1 ∧
            o ∉ ign ∧ jsToLower o = k) := by
    intro fs
    induction fs with
    | nil => exact fun st => ⟨fun u hu => Or.inl hu, fun k hk => Or.inl hk⟩
    | cons f rest ih =>
      intro st
      constructor
      · intro u hu
        rw [List.foldl_cons] at hu
        rcases (ih _).1 u hu with h | h
        · rcases calls_foldOwners lookup ign f.repo _ st u h with h2 | h2
          · exact Or.inl h2
          · exact Or.inr ⟨⟨f, by simp, h2.1⟩, h2.2⟩
        · obtain ⟨⟨f', hf', ho'⟩, hig⟩ := h
          exact Or.inr ⟨⟨f', by simp [hf'], ho'⟩, hig⟩
      · intro k hk
        rw [List.foldl_cons] at hk
        rcases (ih _).2 k hk with h | h
        · rcases keys_foldOwners lookup ign f.repo _ st k h with h2 | h2
          · exact Or.inl h2
          · obtain ⟨o, ho, hig, hko⟩ := h2
            exact Or.inr ⟨f, by simp, o, ho, hig, hko⟩
        · obtain ⟨f', hf', o, ho, hig, hko⟩ := h
          exact Or.inr ⟨f', by simp [hf'], o, ho, hig, hko⟩
  constructor
  · intro u hu
    rcases (main files ([], [])).1 u hu with h | h
    · simp at h
    · exact h.2
  · intro k hk
    rcases (main files ([], [])).2 k hk with h | h
    · simp at h
    · exact h

/-- Witness for the amended C7: in a run with `ignoredUsers = ["carol"]` and
one document declaring `@Bob @carol`, the username `Bob` that was passed to
the lookup is not ignored, and the map key `bob` stems from a non-ignored
verbatim owner. -/
theorem C7_witness :
    (¬ ("Bob" : String) ∈ (["carol"] : List String)) ∧
    (∃ f, f ∈ [(⟨"A", "* @Bob @carol"⟩ : CodeownersFile)] ∧
      ∃ o, o ∈ (extractGitHubUsernames f.content).1 ∧
        o ∉ (["carol"] : List String) ∧ jsToLower o = "bob") :=
  ⟨(C7_amended_ignore_is_verbatim [⟨"A", "* @Bob @carol"⟩] lookupSome ["carol"]).1
      "Bob" (by decide),
   (C7_amended_ignore_is_verbatim [⟨"A", "* @Bob @carol"⟩] lookupSome ["carol"]).2
      "bob" (by decide)⟩

theorem cmDeleteAll_nil (m : CMap) : cmDeleteAll [] m = m := by
  simp [cmDeleteAll]

theorem cmFind_cmDeleteAll (ks : List String) (m : CMap) (k : String) :
    cmFind (cmDeleteAll ks m) k = if k ∈ ks then none else cmFind m k := by
  induction m with
  | nil => by_cases h : k ∈ ks <;> simp [cmDeleteAll, cmFind, h]
  | cons e rest ih =>
    by_cases hc : e.1 ∈ ks
    · have : cmDeleteAll ks (e :: rest) = cmDeleteAll ks rest := by
        simp [cmDeleteAll, List.filter_cons, List.elem_iff, List.contains, hc]
      rw [this, ih]
      by_cases hk : k ∈ ks
      · simp [hk]
      · have hne : e.1 ≠ k := fun hh => hk (hh ▸ hc)
        simp [hk, cmFind_cons, hne]
    · have : cmDeleteAll ks (e :: rest) = e :: cmDeleteAll ks rest := by
        simp [cmDeleteAll, List.filter_cons, List.elem_iff, List.contains, hc]
      rw [this]
      by_cases he : e.1 = k
      · have hk : k ∉ ks := fun hh => hc (he ▸ hh)
        simp [cmFind_cons, he, hk]
      · rw [cmFind_cons, if_neg he, ih]
        by_cases hk : k ∈ ks
        · simp [hk]
        · simp [hk, cmFind_cons, he]

theorem cmDelete_cmDeleteAll (ks : List String) (m : CMap) (k : String) :
    cmDelete (cmDeleteAll ks m) k = cmDeleteAll (k :: ks) m := by
  induction m with
  | nil => simp [cmDelete, cmDeleteAll]
  | cons e rest ih =>
    by_cases hc : e.1 ∈ ks
    · have h1 : cmDeleteAll ks (e :: rest) = cmDeleteAll ks rest := by
        simp [cmDeleteAll, List.filter_cons, List.elem_iff, List.contains, hc]
      have h2 : cmDeleteAll (k :: ks) (e :: rest) = cmDeleteAll (k :: ks) rest := by
        simp [cmDeleteAll, List.filter_cons, List.elem_iff, List.contains, hc]
      rw [h1, h2, ih]
    · have h1 : cmDeleteAll ks (e :: rest) = e :: cmDeleteAll ks rest := by
        simp [cmDeleteAll, List.filter_cons, List.elem_iff, List.contains, hc]
      by_cases he : e.1 = k
      · have h2 : cmDeleteAll (k :: ks) (e :: rest) = cmDeleteAll (k :: ks) rest := by
          simp [cmDeleteAll, List.filter_cons, List.elem_iff, List.contains, hc, he]
        rw [h1, h2, ← ih]
        simp [cmDelete, List.filter_cons, he]
      · have h2 : cmDeleteAll (k :: ks) (e :: rest) = e :: cmDeleteAll (k :: ks) rest := by
          simp [cmDeleteAll, List.filter_cons, List.elem_iff, List.contains, hc, he]
        rw [h1, h2, ← ih]
        simp [cmDelete, List.filter_cons, he]

theorem refreshLoop_eq_spec (cur : CMap) :
    ∀ (prev : List Obj) (S : List String),
    refreshLoop prev (cmDeleteAll S cur) =
      (reconcileSpecLoop cur prev S).map (fun r => (r.1, cmDeleteAll r.2.2 cur, r.2.1)) := by
  intro prev
  induction prev with
  | nil => intro S; simp [refreshLoop, reconcileSpecLoop]
  | cons p rest ih =>
    intro S
    cases hg : getField p "github" with
    | none => simp [refreshLoop, reconcileSpecLoop, hg]
    | some v =>
      cases v with
      | vStrs l => simp [refreshLoop, reconcileSpecLoop, hg]
      | vUndefined => simp [refreshLoop, reconcileSpecLoop, hg]
      | vStr g =>
        by_cases hS : jsToLower g ∈ S
        · have hf : cmFind (cmDeleteAll S cur) (jsToLower g) = none := by
            rw [cmFind_cmDeleteAll]
            simp [hS]
          simp only [refreshLoop, reconcileSpecLoop, hg, hf, if_pos hS]
          rw [ih S]
          cases hs : reconcileSpecLoop cur rest S with
          | none => simp
          | some r => simp
        · cases hf0 : cmFind cur (jsToLower g) with
          | none =>
            have hf : cmFind (cmDeleteAll S cur) (jsToLower g) = none := by
              rw [cmFind_cmDeleteAll]
              simp [hS, hf0]
            simp only [refreshLoop, reconcileSpecLoop, hg, hf, if_neg hS, hf0]
            rw [ih S]
            cases hs : reconcileSpecLoop cur rest S with
            | none => simp
            | some r => simp
          | some cm =>
            have hf : cmFind (cmDeleteAll S cur) (jsToLower g) = some cm := by
              rw [cmFind_cmDeleteAll]
              simp [hS, hf0]
            simp only [refreshLoop, reconcileSpecLoop, hg, hf, if_neg hS, hf0]
            rw [cmDelete_cmDeleteAll, ih (jsToLower g :: S)]
            cases hs : reconcileSpecLoop cur rest (jsToLower g :: S) with
            | none => simp
            | some r => simp

theorem cmFind_isSome_of_mem (m : CMap) (e : String × Obj) (h : e ∈ m) :
    (cmFind m e.1).isSome := by
  induction m with
  | nil => simp at h
  | cons e' rest ih =>
    rw [cmFind_cons]
    by_cases he : e'.1 = e.1
    · simp [he]
    · rcases List.mem_cons.mp h with h | h
      · exact absurd (h ▸ rfl) he
      · simpa [he] using ih h

theorem matchedBy_cons (p : Obj) (rest : List Obj) (k : String) :
    matchedBy (p :: rest) k =
      ((match getField p "github" with
        | some (.vStr g) => jsToLower g == k
        | _ => false) || matchedBy rest k) := by
  simp [matchedBy, List.any_cons]

theorem specLoop_consumed (cur : CMap) :
    ∀ (prev : List Obj) (S : List String) (u : List Obj) (rem c : List String),
    reconcileSpecLoop cur prev S = some (u, rem, c) →
    ∀ k, (k ∈ c ↔ k ∈ S ∨ (matchedBy prev k = true ∧ (cmFind cur k).isSome)) := by
  intro prev
  induction prev with
  | nil =>
    intro S u rem c h k
    simp only [reconcileSpecLoop, Option.some.injEq, Prod.mk.injEq] at h
    obtain ⟨-, -, hc⟩ := h
    subst hc
    simp [matchedBy]
  | cons p rest ih =>
    intro S u rem c h k
    cases hg : getField p "github" with
    | none =>
      rw [reconcileSpecLoop, hg] at h
      exact absurd h (by simp)
    | some v =>
      cases v with
      | vStrs l =>
        rw [reconcileSpecLoop, hg] at h
        exact absurd h (by simp)
      | vUndefined =>
        rw [reconcileSpecLoop, hg] at h
        exact absurd h (by simp)
      | vStr g =>
        rw [matchedBy_cons, hg]
        by_cases hS : jsToLower g ∈ S
        · rw [reconcileSpecLoop, hg] at h
          simp only [if_pos hS] at h
          cases hs : reconcileSpecLoop cur rest S with
          | none => rw [hs] at h; exact absurd h (by simp)
          | some r =>
            obtain ⟨u', rem', c'⟩ := r
            rw [hs] at h
            simp only [Option.some.injEq, Prod.mk.injEq] at h
            obtain ⟨-, -, hc⟩ := h
            subst hc
            rw [ih S u' rem' c' hs k]
            by_cases hk : jsToLower g = k
            · subst hk
              simp [hS]
            · have : (jsToLower g == k) = false := by simp [hk]
              simp [this]
        · cases hf : cmFind cur (jsToLower g) with
          | none =>
            rw [reconcileSpecLoop, hg] at h
            simp only [if_neg hS, hf] at h
            cases hs : reconcileSpecLoop cur rest S with
            | none => rw [hs] at h; exact absurd h (by simp)
            | some r =>
              obtain ⟨u', rem', c'⟩ := r
              rw [hs] at h
              simp only [Option.some.injEq, Prod.mk.injEq] at h
              obtain ⟨-, -, hc⟩ := h
              subst hc
              rw [ih S u' rem' c' hs k]
              by_cases hk : jsToLower g = k
              · subst hk
                simp [hf]
              · have : (jsToLower g == k) = false := by simp [hk]
                simp [this]
          | some cm =>
            rw [reconcileSpecLoop, hg] at h
            simp only [if_neg hS, hf] at h
            cases hs : reconcileSpecLoop cur rest (jsToLower g :: S) with
            | none => rw [hs] at h; exact absurd h (by simp)
            | some r =>
              obtain ⟨u', rem', c'⟩ := r
              rw [hs] at h
              simp only [Option.some.injEq, Prod.mk.injEq] at h
              obtain ⟨-, -, hc⟩ := h
              subst hc
              rw [ih (jsToLower g :: S) u' rem' c' hs k]
              by_cases hk : jsToLower g = k
              · subst hk
                simp [hf, List.mem_cons]
              · have hk' : ¬ (k = jsToLower g) := fun hh => hk hh.symm
                have hb : (jsToLower g == k) = false := by simp [hk]
                have hms : k ∈ jsToLower g :: S ↔ k ∈ S := by
                  simp [List.mem_cons, hk']
                rw [hms]
                simp [hb]

theorem cmDeleteAll_eq_filter_matchedBy (cur : CMap) (prev : List Obj)
    (u : List Obj) (rem c : List String)
    (h : reconcileSpecLoop cur prev [] = some (u, rem, c)) :
    cmDeleteAll c cur = cur.filter (fun e => !(matchedBy prev e.1)) := by
  unfold cmDeleteAll
  apply List.filter_congr
  intro e he
  have hiff := specLoop_consumed cur prev [] u rem c h e.1
  simp only [List.not_mem_nil, false_or] at hiff
  have hsome : (cmFind cur e.1).isSome := cmFind_isSome_of_mem cur e he
  by_cases hm : matchedBy prev e.1 = true
  · have hin : e.1 ∈ c := hiff.mpr ⟨hm, hsome⟩
    simp [List.contains, List.elem_iff, hin, hm]
  · have hout : e.1 ∉ c := fun hc => hm (hiff.mp hc).1
    rw [Bool.not_eq_true] at hm
    simp [List.contains, List.elem_iff, hout, hm]

/-- Claim C3 amended: the reconciler returns exactly the result of the
two-phase consumed-key reconciliation `reconcileSpec`: each previous record
whose key is in the current map and not already consumed by an earlier
previous record is updated, in original relative order; previous records
whose key is absent or already consumed are omitted, with a removal reported;
followed by one fresh record for every current-map key not matched by any
previous record, appended after all updated records in map insertion order. -/
theorem C3_amended_refresh_eq_reconcileSpec (prev : List Obj) (cur : CMap) :
    refreshPreviousMaintainers prev cur = reconcileSpec prev cur := by
  unfold refreshPreviousMaintainers reconcileSpec
  have h := refreshLoop_eq_spec cur prev []
  rw [cmDeleteAll_nil] at h
  rw [h]
  cases hs : reconcileSpecLoop cur prev [] with
  | none => simp
  | some r =>
    obtain ⟨u, rem, c⟩ := r
    have hm := cmDeleteAll_eq_filter_matchedBy cur prev u rem c hs
    simp [hm]

/-- Claim C10 (confirmed): after `refreshPreviousMaintainers` returns, the
caller's current-maintainer map holds exactly the entries whose key is not
matched by any previous record — every previous record found in the map
deleted its entry during iteration, leaving precisely the newly discovered
maintainers. -/
theorem C10_map_mutation_leaves_new_maintainers (prev : List Obj) (cur : CMap) (upd : List Obj) (m : CMap)
    (rem : List String)
    (h : refreshPreviousMaintainers prev cur = some (upd, m, rem)) :
    m = cur.filter (fun e => !(matchedBy prev e.1)) := by
  unfold refreshPreviousMaintainers at h
  have he := refreshLoop_eq_spec cur prev []
  rw [cmDeleteAll_nil] at he
  rw [he] at h
  cases hs : reconcileSpecLoop cur prev [] with
  | none => rw [hs] at h; simp at h
  | some r =>
    obtain ⟨u, rem', c⟩ := r
    rw [hs] at h
    simp only [Option.map_some', Option.some.injEq, Prod.mk.injEq] at h
    obtain ⟨h1, h2, h3⟩ := h
    rw [← h2]
    exact cmDeleteAll_eq_filter_matchedBy cur prev u rem' c hs

/-- Witness for C10: reconciling the roster `[recEve]` against the map with
entries for `eve` and `bob` leaves exactly the unmatched `bob` entry in the
map. -/
theorem C10_witness :
    ([("bob", entryBob)] : CMap) =
      curEveBob.filter (fun e => !(matchedBy [recEve] e.1)) :=
  C10_map_mutation_leaves_new_maintainers [recEve] curEveBob
    [mergeRecord recEve entryEve, entryBob] [("bob", entryBob)] [] (by rfl)

theorem splitCharsOn_of_not_mem (sep : Char) (cs : List Char) (h : sep ∉ cs) :
    splitCharsOn sep cs = [cs] := by
  induction cs with
  | nil => simp [splitCharsOn]
  | cons c rest ih =>
    have hc : ¬ (c = sep) := fun hh => h (hh ▸ List.mem_cons_self c rest)
    have hr : sep ∉ rest := fun hh => h (List.mem_cons_of_mem c hh)
    simp [splitCharsOn, hc, ih hr]

theorem splitHash_of_not_mem (s : String) (h : '#' ∉ s.data) :
    splitHash s = [s] := by
  simp [splitHash, splitCharsOn_of_not_mem '#' s.data h]

theorem splitLines_of_not_mem (s : String) (h : '\n' ∉ s.data) :
    splitLines s = [s] := by
  simp [splitLines, splitCharsOn_of_not_mem '\n' s.data h]

theorem mem_setAdd (l : List String) (x s : String) :
    s ∈ setAdd l x ↔ s ∈ l ∨ s = x := by
  by_cases h : x ∈ l
  · simp only [setAdd, if_pos h]
    constructor
    · exact Or.inl
    · rintro (hs | hs)
      · exact hs
      · exact hs ▸ h
  · simp [setAdd, h]

theorem foldNative_warnings (cands : List String) :
    ∀ st : List String × List String,
    (cands.foldl nativeStep st).2 = st.2 ++ cands.filter (fun t => !(acceptOwner t)) := by
  induction cands with
  | nil => intro st; simp
  | cons t rest ih =>
    intro st
    rw [List.foldl_cons]
    by_cases h : acceptOwner t
    · rw [show nativeStep st t = (setAdd st.1 (sliceFromOne t), st.2) by simp [nativeStep, h]]
      rw [ih]
      simp [List.filter_cons, h]
    · rw [show nativeStep st t = (st.1, st.2 ++ [t]) by simp [nativeStep, h]]
      rw [ih]
      simp [List.filter_cons, h]

theorem foldNative_mem (cands : List String) :
    ∀ (st : List String × List String) (s : String),
    (s ∈ (cands.foldl nativeStep st).1 ↔
      s ∈ st.1 ∨ ∃ t, t ∈ cands ∧ acceptOwner t = true ∧ sliceFromOne t = s) := by
  induction cands with
  | nil => intro st s; simp
  | cons t rest ih =>
    intro st s
    rw [List.foldl_cons]
    by_cases h : acceptOwner t
    · rw [show nativeStep st t = (setAdd st.1 (sliceFromOne t), st.2) by simp [nativeStep, h]]
      rw [ih]
      simp only [mem_setAdd]
      constructor
      · rintro ((hs | hs) | ⟨t', ht', ha', hd'⟩)
        · exact Or.inl hs
        · exact Or.inr ⟨t, by simp, h, hs.symm⟩
        · exact Or.inr ⟨t', by simp [ht'], ha', hd'⟩
      · rintro (hs | ⟨t', ht', ha', hd'⟩)
        · exact Or.inl (Or.inl hs)
        · rcases List.mem_cons.mp ht' with ht' | ht'
          · exact Or.inl (Or.inr (by rw [← ht']; exact hd'.symm))
          · exact Or.inr ⟨t', ht', ha', hd'⟩
    · rw [show nativeStep st t = (st.1, st.2 ++ [t]) by simp [nativeStep, h]]
      rw [ih]
      constructor
      · rintro (hs | ⟨t', ht', ha', hd'⟩)
        · exact Or.inl hs
        · exact Or.inr ⟨t', by simp [ht'], ha', hd'⟩
      · rintro (hs | ⟨t', ht', ha', hd'⟩)
        · exact Or.inl hs
        · rcases List.mem_cons.mp ht' with ht' | ht'
          · rw [ht'] at ha'
            exact absurd ha' (by simpa using h)
          · exact Or.inr ⟨t', ht', ha', hd'⟩

/-- Claim C5 (confirmed): on a line with no `#` (so the comment part is empty
and only the standard declaration path can contribute), the first whitespace
token is discarded and a subsequent token contributes an identifier (with the
leading `@` stripped) exactly when it starts with `@` and contains no `/`;
every rejected token is reported as a warning, in order, and contributes
nothing. -/
theorem C5_standard_declaration_path (line : String)
    (h1 : '#' ∉ line.data) (h2 : '\n' ∉ line.data) :
    (∀ s, s ∈ (extractGitHubUsernames line).1 ↔
      ∃ t, t ∈ (splitByWhitespace line).drop 1 ∧
        startsWithAt t = true ∧ containsSlash t = false ∧ sliceFromOne t = s) ∧
    (extractGitHubUsernames line).2 =
      ((splitByWhitespace line).drop 1).filter
        (fun t => !(startsWithAt t && !(containsSlash t))) := by
  by_cases hline : line = ""
  · subst hline
    constructor
    · intro s
      simp [extractGitHubUsernames, splitByWhitespace, wordsOfAux]
    · simp [extractGitHubUsernames, splitByWhitespace, wordsOfAux]
  · have hsh := splitHash_of_not_mem line h1
    have hsl := splitLines_of_not_mem line h2
    have hm0 : splitMarkers "" = [""] := rfl
    have hpl : processLine ([], []) line =
        ((splitByWhitespace line).drop 1).foldl nativeStep ([], []) := by
      simp [processLine, hsh, hm0]
    have hex : extractGitHubUsernames line =
        ((splitByWhitespace line).drop 1).foldl nativeStep ([], []) := by
      simp [extractGitHubUsernames, hline, hsl, hpl]
    rw [hex]
    constructor
    · intro s
      rw [foldNative_mem]
      simp only [List.not_mem_nil, false_or]
      constructor
      · rintro ⟨t, ht, ha, hd⟩
        have ha' : startsWithAt t = true ∧ containsSlash t = false := by
          simpa [acceptOwner] using ha
        exact ⟨t, ht, ha'.1, ha'.2, hd⟩
      · rintro ⟨t, ht, hs, hc, hd⟩
        exact ⟨t, ht, by simp [acceptOwner, hs, hc], hd⟩
    · rw [foldNative_warnings]
      simp [acceptOwner]

/-- Witness for C5 on the line `docs/ @alice bob@x.y @org/team`: membership of
`alice` is characterized by the accepted-token condition, and the warnings are
exactly the rejected tokens `bob@x.y` and `@org/team`. -/
theorem C5_witness :
    (("alice" ∈ (extractGitHubUsernames "docs/ @alice bob@x.y @org/team").1) ↔
      ∃ t, t ∈ (splitByWhitespace "docs/ @alice bob@x.y @org/team").drop 1 ∧
        startsWithAt t = true ∧ containsSlash t = false ∧ sliceFromOne t = "alice") ∧
    (extractGitHubUsernames "docs/ @alice bob@x.y @org/team").2 =
      ((splitByWhitespace "docs/ @alice bob@x.y @org/team").drop 1).filter
        (fun t => !(startsWithAt t && !(containsSlash t))) :=
  ⟨(C5_standard_declaration_path "docs/ @alice bob@x.y @org/team"
      (by decide) (by decide)).1 "alice",
   (C5_standard_declaration_path "docs/ @alice bob@x.y @org/team"
      (by decide) (by decide)).2⟩

theorem prefixOf_exists (l₁ : List Char) :
    ∀ l₂, l₁.isPrefixOf l₂ = true → ∃ t, l₂ = l₁ ++ t := by
  induction l₁ with
  | nil => intro l₂ _; exact ⟨l₂, rfl⟩
  | cons a as ih =>
    intro l₂ h
    cases l₂ with
    | nil => simp [List.isPrefixOf] at h
    | cons b bs =>
      simp only [List.isPrefixOf, Bool.and_eq_true, beq_iff_eq] at h
      obtain ⟨t, ht⟩ := ih bs h.2
      exact ⟨t, by rw [h.1, ht]; rfl⟩

theorem colon_mem_of_doc_prefixOf (mid rest : List Char)
    (hm : ':' ∉ mid) (hlen : 1 ≤ mid.length)
    (h : docMarker.isPrefixOf (mid ++ codeMarker ++ rest) = true) : False := by
  obtain ⟨t, ht⟩ := prefixOf_exists _ _ h
  have h11 : (mid ++ codeMarker ++ rest).get? 11 = some ':' := by
    rw [ht, List.get?_append (by decide : (11 : Nat) < docMarker.length)]
    decide
  by_cases hc : 11 < mid.length
  · rw [List.append_assoc, List.get?_append hc] at h11
    exact hm (List.get?_mem h11)
  · push_neg at hc
    rw [List.append_assoc, List.get?_append_right hc] at h11
    have hj : 11 - mid.length < codeMarker.length := by
      have : codeMarker.length = 13 := by decide
      omega
    rw [List.get?_append hj] at h11
    have : ∀ j, j < 12 → codeMarker.get? j ≠ some ':' := by decide
    exact this (11 - mid.length) (by omega) h11

theorem colon_mem_of_code_prefixOf (mid rest : List Char)
    (hm : ':' ∉ mid) (hlen : 1 ≤ mid.length)
    (h : codeMarker.isPrefixOf (mid ++ codeMarker ++ rest) = true) : False := by
  obtain ⟨t, ht⟩ := prefixOf_exists _ _ h
  have h12 : (mid ++ codeMarker ++ rest).get? 12 = some ':' := by
    rw [ht, List.get?_append (by decide : (12 : Nat) < codeMarker.length)]
    decide
  by_cases hc : 12 < mid.length
  · rw [List.append_assoc, List.get?_append hc] at h12
    exact hm (List.get?_mem h12)
  · push_neg at hc
    rw [List.append_assoc, List.get?_append_right hc] at h12
    have hj : 12 - mid.length < codeMarker.length := by
      have : codeMarker.length = 13 := by decide
      omega
    rw [List.get?_append hj] at h12
    have : ∀ j, j < 12 → codeMarker.get? j ≠ some ':' := by decide
    exact this (12 - mid.length) (by omega) h12

theorem splitMarkersGo_no_colon (post : List Char) :
    ∀ (acc : List Char) (fuel : Nat), post.length ≤ fuel → ':' ∉ post →
    splitMarkersGo fuel post acc = [acc.reverse ++ post] := by
  induction post with
  | nil =>
    intro acc fuel _ _
    cases fuel <;> simp [splitMarkersGo]
  | cons c rest ih =>
    intro acc fuel hf hp
    cases fuel with
    | zero => simp at hf
    | succ f =>
      have hdoc : ¬ (docMarker.isPrefixOf (c :: rest) = true) := by
        intro h
        obtain ⟨t, ht⟩ := prefixOf_exists _ _ h
        have : ':' ∈ c :: rest := by
          rw [ht]
          exact List.mem_append_left t (by decide)
        exact hp this
      have hcode : ¬ (codeMarker.isPrefixOf (c :: rest) = true) := by
        intro h
        obtain ⟨t, ht⟩ := prefixOf_exists _ _ h
        have : ':' ∈ c :: rest := by
          rw [ht]
          exact List.mem_append_left t (by decide)
        exact hp this
      rw [splitMarkersGo, if_neg hdoc, if_neg hcode]
      rw [ih (c :: acc) f (by simp at hf; omega)
        (fun hh => hp (List.mem_cons_of_mem c hh))]
      simp

theorem splitMarkersGo_mid_code (mid : List Char) :
    ∀ (post : List Char) (acc : List Char) (fuel : Nat),
    (mid ++ codeMarker ++ post).length ≤ fuel → ':' ∉ mid → ':' ∉ post →
    splitMarkersGo fuel (mid ++ codeMarker ++ post) acc =
      [acc.reverse ++ mid, post] := by
  induction mid with
  | nil =>
    intro post acc fuel hf hm hp
    have hlen : codeMarker.length = 13 := by decide
    cases fuel with
    | zero =>
      simp only [List.nil_append, List.length_append] at hf
      omega
    | succ f =>
      have hrw : (([] : List Char) ++ codeMarker ++ post) =
          'c' :: ("odeTriagers:".data ++ post) := rfl
      rw [hrw, splitMarkersGo]
      have hdoc : docMarker.isPrefixOf ('c' :: ("odeTriagers:".data ++ post)) = false := rfl
      have hcode : codeMarker.isPrefixOf ('c' :: ("odeTriagers:".data ++ post)) = true := by
        have : 'c' :: ("odeTriagers:".data ++ post) = codeMarker ++ post := rfl
        rw [this]
        induction (codeMarker) with
        | nil => simp [List.isPrefixOf]
        | cons a as iha => simp [List.isPrefixOf, iha]
      rw [hdoc]
      simp only [Bool.false_eq_true, if_false, ite_false]
      rw [hcode]
      simp only [if_true, ite_true]
      have hdrop : ("odeTriagers:".data ++ post).drop 12 = post := rfl
      rw [hdrop]
      rw [splitMarkersGo_no_colon post [] f
        (by simp only [List.nil_append, List.length_append] at hf; omega) hp]
      simp
  | cons c mid' ih =>
    intro post acc fuel hf hm hp
    cases fuel with
    | zero =>
      simp only [List.length_append, List.length_cons] at hf
      omega
    | succ f =>
      have hrw : ((c :: mid') ++ codeMarker ++ post) =
          c :: (mid' ++ codeMarker ++ post) := by simp
      rw [hrw, splitMarkersGo]
      have hm' : ':' ∉ mid' := fun hh => hm (List.mem_cons_of_mem c hh)
      have hlen1 : 1 ≤ (c :: mid').length := by simp
      have hdoc : ¬ (docMarker.isPrefixOf (c :: (mid' ++ codeMarker ++ post)) = true) := by
        intro h
        rw [← hrw] at h
        exact colon_mem_of_doc_prefixOf (c :: mid') post hm hlen1 h
      have hcode : ¬ (codeMarker.isPrefixOf (c :: (mid' ++ codeMarker ++ post)) = true) := by
        intro h
        rw [← hrw] at h
        exact colon_mem_of_code_prefixOf (c :: mid') post hm hlen1 h
      rw [if_neg hdoc, if_neg hcode]
      rw [ih post (c :: acc) f
        (by simp only [List.length_append, List.length_cons] at hf ⊢; omega) hm' hp]
      simp

theorem splitMarkersGo_full (mid post : List Char) (acc : List Char) (fuel : Nat)
    (hf : (docMarker ++ mid ++ codeMarker ++ post).length ≤ fuel)
    (hm : ':' ∉ mid) (hp : ':' ∉ post) :
    splitMarkersGo fuel (docMarker ++ mid ++ codeMarker ++ post) acc =
      [acc.reverse, mid, post] := by
  have hlen : docMarker.length = 12 := by decide
  cases fuel with
  | zero =>
    simp only [List.length_append] at hf
    omega
  | succ f =>
    have hrw : (docMarker ++ mid ++ codeMarker ++ post) =
        'd' :: ("ocTriagers:".data ++ (mid ++ codeMarker ++ post)) := rfl
    rw [hrw, splitMarkersGo]
    have hdoc : docMarker.isPrefixOf
        ('d' :: ("ocTriagers:".data ++ (mid ++ codeMarker ++ post))) = true := by
      have h2 : 'd' :: ("ocTriagers:".data ++ (mid ++ codeMarker ++ post)) =
          docMarker ++ (mid ++ codeMarker ++ post) := rfl
      rw [h2]
      induction (docMarker) with
      | nil => simp [List.isPrefixOf]
      | cons a as iha => simp [List.isPrefixOf, iha]
    rw [hdoc]
    simp only [if_true, ite_true]
    have hdrop : ("ocTriagers:".data ++ (mid ++ codeMarker ++ post)).drop 11 =
        mid ++ codeMarker ++ post := rfl
    rw [hdrop]
    rw [splitMarkersGo_mid_code mid post [] f
      (by simp only [List.length_append] at hf ⊢; omega) hm hp]
    simp


theorem processLine_triager_only (line restS midS postS : String)
    (hsp : splitHash line = ["", restS])
    (hmk : splitMarkers restS = ["", midS, postS])
    (hne' : midS ≠ "") :
    processLine ([], []) line = ((splitByWhitespace midS).foldl setAdd [], []) := by
  simp only [processLine, hsp]
  simp only [List.headD, List.get?, Option.getD]
  rw [hmk]
  simp only [List.get?]
  rw [if_neg hne']
  simp [splitByWhitespace, wordsOfAux]

/-- Claim C9 amended: the comment is split on every occurrence of either
marker, and the accepted tokens are exactly the whitespace tokens of the
segment between the first marker and the next marker occurrence (or the end of
the comment).  In particular, when both markers occur in one comment, tokens
after the second marker are not accepted.  Proved for every comment of the
form `docTriagers:<mid>codeTriagers:<post>` where `<mid>` is nonempty and
neither `<mid>` nor `<post>` contains a colon (or `#`/newline, which would
end the comment or line): extraction yields exactly the tokens of `<mid>`. -/
theorem C9_amended_first_marker_segment_only (mid post : String)
    (hmc : ':' ∉ mid.data) (hmh : '#' ∉ mid.data) (hmn : '\n' ∉ mid.data)
    (hmne : mid ≠ "")
    (hpc : ':' ∉ post.data) (hph : '#' ∉ post.data) (hpn : '\n' ∉ post.data) :
    (extractGitHubUsernames ("#docTriagers:" ++ mid ++ "codeTriagers:" ++ post)).1 =
      (splitByWhitespace mid).foldl setAdd [] := by
  have h_data : ("#docTriagers:" ++ mid ++ "codeTriagers:" ++ post).data =
      '#' :: (docMarker ++ mid.data ++ codeMarker ++ post.data) := by
    rw [String.data_append, String.data_append, String.data_append]
    rfl
  have hne : ("#docTriagers:" ++ mid ++ "codeTriagers:" ++ post) ≠ "" := by
    intro h
    have h2 := congrArg String.data h
    rw [h_data] at h2
    simp at h2
  have hrest : '#' ∉ (docMarker ++ mid.data ++ codeMarker ++ post.data) := by
    intro hmem
    simp only [List.mem_append] at hmem
    rcases hmem with ((h | h) | h) | h
    · exact absurd h (by decide)
    · exact hmh h
    · exact absurd h (by decide)
    · exact hph h
  have hnl : '\n' ∉ ("#docTriagers:" ++ mid ++ "codeTriagers:" ++ post).data := by
    rw [h_data]
    intro hmem
    simp only [List.mem_cons, List.mem_append] at hmem
    rcases hmem with h | ((h | h) | h) | h
    · exact absurd h (by decide)
    · exact absurd h (by decide)
    · exact hmn h
    · exact absurd h (by decide)
    · exact hpn h
  have hsl := splitLines_of_not_mem _ hnl
  have hex1 : extractGitHubUsernames ("#docTriagers:" ++ mid ++ "codeTriagers:" ++ post) =
      processLine ([], []) ("#docTriagers:" ++ mid ++ "codeTriagers:" ++ post) := by
    simp [extractGitHubUsernames, hne, hsl]
  have hsplit : splitHash ("#docTriagers:" ++ mid ++ "codeTriagers:" ++ post) =
      ["", String.mk (docMarker ++ mid.data ++ codeMarker ++ post.data)] := by
    unfold splitHash
    rw [h_data]
    rw [show splitCharsOn '#' ('#' :: (docMarker ++ mid.data ++ codeMarker ++ post.data)) =
        [] :: splitCharsOn '#' (docMarker ++ mid.data ++ codeMarker ++ post.data) by
      simp [splitCharsOn]]
    rw [splitCharsOn_of_not_mem '#' _ hrest]
    rfl
  have hmarks : splitMarkers (String.mk (docMarker ++ mid.data ++ codeMarker ++ post.data)) =
      ["", mid, post] := by
    unfold splitMarkers
    rw [show (String.mk (docMarker ++ mid.data ++ codeMarker ++ post.data)).data =
        docMarker ++ mid.data ++ codeMarker ++ post.data from rfl]
    rw [splitMarkersGo_full mid.data post.data [] _ (Nat.le_refl _) hmc hpc]
    rfl
  have hex2 := processLine_triager_only _ _ _ _ hsplit hmarks hmne
  rw [hex1, hex2]

/-- Witness for the amended C9: for the comment line
`#docTriagers: alpha codeTriagers: beta` the extracted owners are exactly the
tokens of `" alpha "`, the segment between the two markers. -/
theorem C9_witness :
    (extractGitHubUsernames ("#docTriagers:" ++ " alpha " ++ "codeTriagers:" ++ " beta")).1 =
      (splitByWhitespace " alpha ").foldl setAdd [] :=
  C9_amended_first_marker_segment_only " alpha " " beta"
    (by decide) (by decide) (by decide) (by decide) (by decide) (by decide) (by decide)
